import Mathlib

/-!
Shallow embedding of the Omni cloud provider QEMU allocation controller and
iPXE boot resolution service, together with theorems checking the
natural-language specification against the code.

The embedding follows the Go source:
- internal/provisioner/provisioner.go: `findMachineUUID`, the
  `TransformExtraOutputFunc` and `FinalizerRemovalExtraOutputFunc` of the
  `MachineRequestStatusController`, and `Provisioner.ResetMachine` (the reset
  call is abstracted to an oracle, since its effect is on the external VM
  backend).
- internal/ipxe/ipxe.go: `Server.ensureQemuMachine` and the HTTP handler in
  `Server.Run`.

Resource-store conventions modelled here: resources are listed in stable
identifier order (COSI lists are sorted by id), so `Create` is modelled as an
ordered insert; `Destroy` removes the single record with the given id;
`Get` is a lookup by id; label queries filter the listing.
-/

/-- QemuMachineAllocation resource: its id is the MachineRequest id that owns
it, `machineUUID` is the value of the machine UUID label
(`resources.MachineUUIDLabel`) when present, and the spec carries the Talos
version and schematic id copied from the request at bind time. -/
structure Allocation where
  id : String
  machineUUID : Option String
  schematicId : String
  talosVersion : String
deriving DecidableEq, Repr

/-- Combined resource-store state visible to the controller and iPXE server:
QemuMachine resources (id only, in listing order) and QemuMachineAllocation
resources (in listing order). -/
structure State where
  machines : List String
  allocations : List Allocation
deriving DecidableEq, Repr

/-- Error returned by `findMachineUUID` when the scan finds no machine
(Go: `errNoMachineAvailable`). -/
inductive FindError where
  | noMachineAvailable
deriving DecidableEq, Repr

instance {ε α : Type} [DecidableEq ε] [DecidableEq α] : DecidableEq (Except ε α) := fun x y =>
  match x, y with
  | .ok a, .ok b =>
    if h : a = b then .isTrue (by simp [h]) else .isFalse (by simp [h])
  | .error a, .error b =>
    if h : a = b then .isTrue (by simp [h]) else .isFalse (by simp [h])
  | .ok _, .error _ => .isFalse (by simp)
  | .error _, .ok _ => .isFalse (by simp)

/-- Reverse index built by `findMachineUUID`: the Go loop over the allocation
list inserts `map[uuid] = allocation.Metadata().ID()` for every allocation
whose machine UUID label is present, skipping the rest, so a later allocation
with the same uuid overwrites an earlier one. This function gives the final
content of the map at key `u`. -/
def uuidInsert (u : String) (acc : Option String) (allocation : Allocation) : Option String :=
  match allocation.machineUUID with
  | some v => if v = u then some allocation.id else acc
  | none => acc

/-- Final content at key `u` of the reverse index after folding `uuidInsert`
over the allocation listing. -/
def uuidToRequestID (allocations : List Allocation) (u : String) : Option String :=
  allocations.foldl (uuidInsert u) none

/-- Scan loop of `findMachineUUID` over the machine list: the first machine
mapped to `requestID` is returned with `isAllocated = true`, a machine mapped
to another request is skipped, the first unmapped machine is returned with
`isAllocated = false`, and an exhausted scan fails. -/
def findMachineUUIDScan (allocations : List Allocation) (requestID : String) :
    List String → Except FindError (String × Bool)
  | [] => .error .noMachineAvailable
  | m :: rest =>
    match uuidToRequestID allocations m with
    | some reqID =>
      if reqID = requestID then .ok (m, true) else findMachineUUIDScan allocations requestID rest
    | none => .ok (m, false)

/-- Embedding of `findMachineUUID` (provisioner.go): build the reverse index
from all allocations, then scan the machines in listing order. -/
def findMachineUUID (machines : List String) (allocations : List Allocation)
    (requestID : String) : Except FindError (String × Bool) :=
  findMachineUUIDScan allocations requestID machines

instance : DecidableRel (fun x y : Allocation => x.id ≤ y.id) := fun x y =>
  inferInstanceAs (Decidable (x.id ≤ y.id))

/-- Resource creation in the store: the new record is inserted at its position
in the id-sorted listing order (COSI lists resources sorted by id). -/
def createAllocation (a : Allocation) (allocations : List Allocation) : List Allocation :=
  List.orderedInsert (fun x y : Allocation => x.id ≤ y.id) a allocations

/-- MachineRequest data read by the controller: its id and the image
reference (schematic id and Talos version) from its spec. -/
structure RequestSpec where
  id : String
  schematicId : String
  talosVersion : String
deriving DecidableEq, Repr

/-- Stage written to the MachineRequestStatus by the transform function. -/
inductive Stage where
  | provisioning
  | provisioned
deriving DecidableEq, Repr

/-- Result kind of one controller callback: success, a scheduled requeue after
the given number of seconds, or an error surfaced to the runtime. -/
inductive Outcome where
  | ok
  | requeue (seconds : Nat)
  | err (msg : String)
deriving DecidableEq, Repr

/-- Fixed requeue interval of the controller, in seconds
(Go: `requeueInterval = 30 * time.Second`). -/
def requeueInterval : Nat := 30

/-- Everything one invocation of `TransformExtraOutputFunc` produces: the
result returned to the runtime, the stage and machine id written to the
MachineRequestStatus in this pass (none when the branch does not write them),
and the allocation list after the pass. -/
structure TransformResult where
  outcome : Outcome
  stage : Option Stage
  statusId : Option String
  allocations : List Allocation
deriving DecidableEq, Repr

/-- Embedding of `TransformExtraOutputFunc` (provisioner.go): reconcile one
live MachineRequest. Match the request to a machine via `findMachineUUID`;
on exhaustion set stage Provisioning and requeue after `requeueInterval`;
on an existing binding report it as Provisioned; on a fresh pick create the
QemuMachineAllocation labeled with the machine UUID (the store rejects the
create when an allocation with the request id already exists) and report
Provisioned. -/
def transform (machines : List String) (allocations : List Allocation)
    (request : RequestSpec) : TransformResult :=
  match findMachineUUID machines allocations request.id with
  | .error .noMachineAvailable =>
    { outcome := .requeue requeueInterval, stage := some .provisioning,
      statusId := none, allocations := allocations }
  | .ok (machineUUID, true) =>
    { outcome := .ok, stage := some .provisioned,
      statusId := some machineUUID, allocations := allocations }
  | .ok (machineUUID, false) =>
    if allocations.any (fun a => a.id = request.id) then
      { outcome := .err "failed to create a QemuMachineAllocation",
        stage := none, statusId := none, allocations := allocations }
    else
      { outcome := .ok, stage := some .provisioned, statusId := some machineUUID,
        allocations :=
          createAllocation
            ⟨request.id, some machineUUID, request.schematicId, request.talosVersion⟩
            allocations }

/-- Everything one invocation of `FinalizerRemovalExtraOutputFunc` produces:
the result returned to the runtime (returning `.ok` is what releases the
finalizer), the allocation list after the pass, and the list of machine UUIDs
for which `Provisioner.ResetMachine` was invoked. -/
structure TeardownResult where
  outcome : Outcome
  allocations : List Allocation
  resets : List String
deriving DecidableEq, Repr

/-- Embedding of `FinalizerRemovalExtraOutputFunc` (provisioner.go): tear down
one MachineRequest marked for removal. Look up its allocation by id (absent:
done). Tear it down; when the store reports it not yet ready to destroy,
requeue. Destroy it, read the machine UUID label (absent: warn and release
the finalizer anyway), and reset the machine; a failed reset is an error.
The outcome of `Provisioner.ResetMachine` acts on the external VM backend and
is abstracted by the oracle `resetOk`; `destroyReady` abstracts what
`r.Teardown` reports about remaining dependents. -/
def finalizerRemoval (allocations : List Allocation) (requestID : String)
    (destroyReady : Bool) (resetOk : String → Bool) : TeardownResult :=
  match allocations.find? (fun a => a.id = requestID) with
  | none => { outcome := .ok, allocations := allocations, resets := [] }
  | some allocation =>
    if !destroyReady then
      { outcome := .requeue requeueInterval, allocations := allocations, resets := [] }
    else
      let remaining := allocations.eraseP (fun a => a.id = requestID)
      match allocation.machineUUID with
      | none => { outcome := .ok, allocations := remaining, resets := [] }
      | some machineUUID =>
        if resetOk machineUUID then
          { outcome := .ok, allocations := remaining, resets := [machineUUID] }
        else
          { outcome := .err "failed to reset the machine",
            allocations := remaining, resets := [machineUUID] }

/-- Test whether a string starts with the character v. This embeds the Go
call strings.HasPrefix(talosVersion, "v") on the underlying character
sequence, which keeps it kernel-evaluable. -/
def startsWithV (s : String) : Bool :=
  s.data.take 1 = ['v']

/-- Version normalization done by the iPXE handler before rendering the boot
script: prepend "v" exactly when the Talos version does not already start
with "v". -/
def normalizeTalosVersion (talosVersion : String) : String :=
  if !startsWithV talosVersion then "v" ++ talosVersion else talosVersion

/-- Rendered form of `ipxeScriptTemplate` (ipxe.go) at the given base URL,
schematic id and (already normalized) Talos version. -/
def ipxeScript (url schematicID talosVersion : String) : String :=
  "#!ipxe\nchain --replace " ++ url ++ "/pxe/" ++ schematicID ++ "/" ++
    talosVersion ++ "/metal-amd64\n"

/-- Embedding of `Server.ensureQemuMachine` (ipxe.go): list the allocations
whose machine UUID label equals the queried uuid and return the first when
any exists; otherwise make sure a QemuMachine record with that uuid exists,
creating it when absent, and report the machine as not allocated (`none`).
Returns the found allocation (if any) and the machine list after the call. -/
def ensureQemuMachine (machines : List String) (allocations : List Allocation)
    (uuid : String) : Option Allocation × List String :=
  match allocations.filter (fun a => a.machineUUID = some uuid) with
  | allocation :: _ => (some allocation, machines)
  | [] =>
    if machines.contains uuid then
      (none, machines)
    else
      (none, List.orderedInsert (fun x y : String => x ≤ y) uuid machines)

/-- HTTP response of the iPXE handler: status code, the Content-Type header
when the handler sets one, and the body. -/
structure BootResponse where
  status : Nat
  contentType : Option String
  body : String
deriving DecidableEq, Repr

/-- Embedding of the HTTP handler in `Server.Run` (ipxe.go) for a boot query
carrying the given machine uuid: a machine without allocation gets 404 with
the retry-hint body, an allocated machine gets 200 text/plain with the
rendered boot script using the schematic id and normalized Talos version of
the allocation. Returns the response and the machine list after the call. -/
def handleIpxeRequest (imageFactoryPXEURL : String) (machines : List String)
    (allocations : List Allocation) (uuid : String) : BootResponse × List String :=
  match ensureQemuMachine machines allocations uuid with
  | (none, machinesAfter) =>
    (⟨404, none, "no pending requests, come later"⟩, machinesAfter)
  | (some allocation, machinesAfter) =>
    (⟨200, some "text/plain",
      ipxeScript imageFactoryPXEURL allocation.schematicId
        (normalizeTalosVersion allocation.talosVersion)⟩,
      machinesAfter)

/-- One serial reconciliation step of the system: creating a MachineRequest
resource (which touches neither QemuMachine nor QemuMachineAllocation
resources), reconciling a live request (matching and, on a fresh pick,
allocation creation), tearing down a removed request, or a boot query hitting
the iPXE server (which may register a QemuMachine). -/
inductive Step where
  | createRequest (request : RequestSpec)
  | reconcile (request : RequestSpec)
  | teardown (requestID : String) (destroyReady : Bool) (resetOk : String → Bool)
  | bootQuery (uuid : String)

/-- State reached after one serial step. -/
def applyStep (s : State) : Step → State
  | .createRequest _ => s
  | .reconcile request =>
    { s with allocations := (transform s.machines s.allocations request).allocations }
  | .teardown requestID destroyReady resetOk =>
    { s with allocations := (finalizerRemoval s.allocations requestID destroyReady resetOk).allocations }
  | .bootQuery uuid =>
    { s with machines := (ensureQemuMachine s.machines s.allocations uuid).2 }

/-- State reached after a serial sequence of steps. -/
def applySteps (s : State) (steps : List Step) : State :=
  steps.foldl applyStep s

/-- Number of allocations whose machine UUID label equals `u`. -/
def referencingCount (allocations : List Allocation) (u : String) : Nat :=
  (allocations.filter (fun a => a.machineUUID = some u)).length

/-- Invariant: every machine id is referenced by at most one allocation whose
machine UUID label equals it. -/
def MachineRefInvariant (s : State) : Prop :=
  ∀ u : String, referencingCount s.allocations u ≤ 1

/-- A machine is skipped by the scan exactly when the reverse index maps it
to a request other than the scanned one. -/
def SkippedBy (allocations : List Allocation) (requestID m : String) : Prop :=
  ∃ r, uuidToRequestID allocations m = some r ∧ r ≠ requestID

theorem uuidInsert_of_ne (u : String) (acc : Option String) (a : Allocation)
    (h : a.machineUUID ≠ some u) : uuidInsert u acc a = acc := by
  unfold uuidInsert
  cases hm : a.machineUUID with
  | none => rfl
  | some v =>
    have hv : v ≠ u := fun e => h (by rw [hm, e])
    simp [hv]

theorem uuidInsert_of_eq (u : String) (acc : Option String) (a : Allocation)
    (h : a.machineUUID = some u) : uuidInsert u acc a = some a.id := by
  unfold uuidInsert
  rw [h]
  simp

theorem foldl_uuidInsert_eq_none (u : String) (l : List Allocation) :
    ∀ acc : Option String,
      l.foldl (uuidInsert u) acc = none ↔ acc = none ∧ ∀ a ∈ l, a.machineUUID ≠ some u := by
  induction l with
  | nil => intro acc; simp
  | cons a l ih =>
    intro acc
    rw [List.foldl_cons, ih]
    cases hm : a.machineUUID with
    | none => simp [uuidInsert_of_ne u acc a (by rw [hm]; exact fun h => Option.noConfusion h), hm]
    | some v =>
      by_cases hv : v = u
      · rw [hv] at hm
        rw [uuidInsert_of_eq u acc a hm]
        simp [hm]
      · rw [uuidInsert_of_ne u acc a (by rw [hm]; simpa using hv)]
        simp only [List.mem_cons, hm]
        constructor
        · rintro ⟨h1, h2⟩
          exact ⟨h1, fun b hb => by
            rcases hb with rfl | hb
            · rw [hm]; simpa using hv
            · exact h2 b hb⟩
        · rintro ⟨h1, h2⟩
          exact ⟨h1, fun b hb => h2 b (Or.inr hb)⟩

theorem uuidToRequestID_eq_none_iff (l : List Allocation) (u : String) :
    uuidToRequestID l u = none ↔ ∀ a ∈ l, a.machineUUID ≠ some u := by
  rw [uuidToRequestID, foldl_uuidInsert_eq_none]
  simp

theorem foldl_uuidInsert_of_no_label (u : String) (l : List Allocation)
    (h : ∀ a ∈ l, a.machineUUID ≠ some u) :
    ∀ acc : Option String, l.foldl (uuidInsert u) acc = acc := by
  induction l with
  | nil => intro acc; rfl
  | cons a l ih =>
    intro acc
    rw [List.foldl_cons, uuidInsert_of_ne u acc a (h a (List.mem_cons_self a l))]
    exact ih (fun b hb => h b (List.mem_cons_of_mem a hb)) acc

theorem foldl_uuidInsert_orderedInsert_of_ne (u : String) (a : Allocation)
    (h : a.machineUUID ≠ some u) (l : List Allocation) :
    ∀ acc : Option String,
      (List.orderedInsert (fun x y : Allocation => x.id ≤ y.id) a l).foldl (uuidInsert u) acc =
        l.foldl (uuidInsert u) acc := by
  induction l with
  | nil =>
    intro acc
    simp [List.orderedInsert, uuidInsert_of_ne u acc a h]
  | cons b l ih =>
    intro acc
    by_cases hle : a.id ≤ b.id
    · simp only [List.orderedInsert, hle, if_true, List.foldl_cons]
      rw [uuidInsert_of_ne u acc a h]
    · simp only [List.orderedInsert, hle, if_false, List.foldl_cons]
      exact ih (uuidInsert u acc b)

theorem uuidToRequestID_createAllocation_of_ne (u : String) (a : Allocation)
    (h : a.machineUUID ≠ some u) (l : List Allocation) :
    uuidToRequestID (createAllocation a l) u = uuidToRequestID l u :=
  foldl_uuidInsert_orderedInsert_of_ne u a h l none

theorem uuidToRequestID_createAllocation_of_eq (u : String) (a : Allocation)
    (ha : a.machineUUID = some u) (l : List Allocation)
    (h : ∀ b ∈ l, b.machineUUID ≠ some u) :
    uuidToRequestID (createAllocation a l) u = some a.id := by
  rw [uuidToRequestID, createAllocation]
  induction l with
  | nil =>
    simp [List.orderedInsert, uuidInsert_of_eq u none a ha]
  | cons b l ih =>
    by_cases hle : a.id ≤ b.id
    · simp only [List.orderedInsert, hle, if_true, List.foldl_cons]
      rw [uuidInsert_of_eq u none a ha]
      exact foldl_uuidInsert_of_no_label u (b :: l) h (some a.id)
    · simp only [List.orderedInsert, hle, if_false, List.foldl_cons]
      rw [uuidInsert_of_ne u none b (h b (List.mem_cons_self b l))]
      exact ih (fun c hc => h c (List.mem_cons_of_mem b hc))

theorem findMachineUUIDScan_ok_decomp (allocations : List Allocation)
    (requestID : String) (machines : List String) (m : String) (b : Bool)
    (h : findMachineUUIDScan allocations requestID machines = .ok (m, b)) :
    ∃ pre post, machines = pre ++ m :: post ∧
      (∀ m' ∈ pre, SkippedBy allocations requestID m') ∧
      (b = true → uuidToRequestID allocations m = some requestID) ∧
      (b = false → uuidToRequestID allocations m = none) := by
  induction machines with
  | nil => exact absurd h (by simp [findMachineUUIDScan])
  | cons m0 machines ih =>
    rw [findMachineUUIDScan] at h
    cases hu : uuidToRequestID allocations m0 with
    | some reqID =>
      rw [hu] at h
      dsimp only at h
      by_cases hr : reqID = requestID
      · rw [if_pos hr] at h
        obtain ⟨hm, hb⟩ : m0 = m ∧ true = b := by
          have := Except.ok.inj h
          exact ⟨congrArg Prod.fst this, congrArg Prod.snd this⟩
        refine ⟨[], machines, by rw [hm]; rfl, by simp, fun _ => ?_, fun hfalse => ?_⟩
        · rw [← hm, hu, hr]
        · rw [← hb] at hfalse; exact absurd hfalse (by simp)
      · rw [if_neg hr] at h
        obtain ⟨pre, post, hsplit, hskip, htrue, hfalse⟩ := ih h
        exact ⟨m0 :: pre, post, by rw [hsplit]; rfl,
          fun m' hm' => by
            rcases List.mem_cons.mp hm' with rfl | hm'
            · exact ⟨reqID, hu, hr⟩
            · exact hskip m' hm',
          htrue, hfalse⟩
    | none =>
      rw [hu] at h
      dsimp only at h
      obtain ⟨hm, hb⟩ : m0 = m ∧ false = b := by
        have := Except.ok.inj h
        exact ⟨congrArg Prod.fst this, congrArg Prod.snd this⟩
      refine ⟨[], machines, by rw [hm]; rfl, by simp, fun htrue => ?_, fun _ => by rw [← hm]; exact hu⟩
      rw [← hb] at htrue; exact absurd htrue (by simp)

theorem findMachineUUIDScan_exhausted_iff (allocations : List Allocation)
    (requestID : String) (machines : List String) :
    findMachineUUIDScan allocations requestID machines = .error .noMachineAvailable ↔
      ∀ m ∈ machines, SkippedBy allocations requestID m := by
  induction machines with
  | nil => simp [findMachineUUIDScan]
  | cons m0 machines ih =>
    rw [findMachineUUIDScan]
    cases hu : uuidToRequestID allocations m0 with
    | some reqID =>
      dsimp only
      by_cases hr : reqID = requestID
      · rw [if_pos hr]
        constructor
        · intro h; exact absurd h (by simp)
        · intro h
          obtain ⟨r, hr', hne⟩ := h m0 (List.mem_cons_self m0 machines)
          rw [hu] at hr'
          exact (hne ((Option.some.inj hr').symm.trans hr)).elim
      · rw [if_neg hr, ih]
        constructor
        · intro h m hm
          rcases List.mem_cons.mp hm with rfl | hm
          · exact ⟨reqID, hu, hr⟩
          · exact h m hm
        · intro h m hm
          exact h m (List.mem_cons_of_mem m0 hm)
    | none =>
      dsimp only
      constructor
      · intro h; exact absurd h (by simp)
      · intro h
        obtain ⟨r, hr', _⟩ := h m0 (List.mem_cons_self m0 machines)
        rw [hu] at hr'
        exact Option.noConfusion hr'

theorem findMachineUUIDScan_of_skipped_then_bound (allocations : List Allocation)
    (requestID : String) (pre : List String) (m : String) (post : List String)
    (hskip : ∀ m' ∈ pre, SkippedBy allocations requestID m')
    (hm : uuidToRequestID allocations m = some requestID) :
    findMachineUUIDScan allocations requestID (pre ++ m :: post) = .ok (m, true) := by
  induction pre with
  | nil =>
    rw [List.nil_append, findMachineUUIDScan, hm]
    dsimp only
    rw [if_pos rfl]
  | cons m0 pre ih =>
    obtain ⟨r, hr, hne⟩ := hskip m0 (List.mem_cons_self m0 pre)
    rw [List.cons_append, findMachineUUIDScan, hr]
    dsimp only
    rw [if_neg hne]
    exact ih (fun m' hm' => hskip m' (List.mem_cons_of_mem m0 hm'))

theorem referencingCount_createAllocation (a : Allocation) (l : List Allocation) (u : String) :
    referencingCount (createAllocation a l) u = referencingCount (a :: l) u :=
  ((List.perm_orderedInsert (fun x y : Allocation => x.id ≤ y.id) a l).filter _).length_eq

theorem referencingCount_cons (a : Allocation) (l : List Allocation) (u : String) :
    referencingCount (a :: l) u =
      (if a.machineUUID = some u then 1 else 0) + referencingCount l u := by
  unfold referencingCount
  rw [List.filter_cons]
  by_cases h : a.machineUUID = some u
  · simp [h, Nat.one_add]
  · simp [h]

theorem referencingCount_eraseP_le (l : List Allocation) (q : Allocation → Bool) (u : String) :
    referencingCount (l.eraseP q) u ≤ referencingCount l u :=
  ((l.eraseP_sublist).filter _).length_le

theorem referencingCount_eq_zero_iff (l : List Allocation) (u : String) :
    referencingCount l u = 0 ↔ ∀ a ∈ l, a.machineUUID ≠ some u := by
  unfold referencingCount
  rw [List.length_eq_zero, List.filter_eq_nil_iff]
  simp

theorem transform_preserves_refCount (machines : List String) (allocations : List Allocation)
    (request : RequestSpec) (h : ∀ u, referencingCount allocations u ≤ 1) :
    ∀ u, referencingCount (transform machines allocations request).allocations u ≤ 1 := by
  intro u
  unfold transform
  cases hf : findMachineUUID machines allocations request.id with
  | error e =>
    cases e
    exact h u
  | ok p =>
    obtain ⟨m, b⟩ := p
    cases b with
    | true => exact h u
    | false =>
      dsimp only
      by_cases hex : allocations.any (fun a => a.id = request.id)
      · rw [if_pos hex]
        exact h u
      · rw [if_neg hex]
        dsimp only
        obtain ⟨pre, post, _, _, _, hnone⟩ :=
          findMachineUUIDScan_ok_decomp allocations request.id machines m false hf
        have hfree : ∀ a ∈ allocations, a.machineUUID ≠ some m :=
          (uuidToRequestID_eq_none_iff allocations m).mp (hnone rfl)
        rw [referencingCount_createAllocation, referencingCount_cons]
        by_cases hm : m = u
        · rw [if_pos (by rw [hm])]
          have hz : referencingCount allocations u = 0 := by
            rw [referencingCount_eq_zero_iff]
            rw [← hm]
            exact hfree
          rw [hz]
        · rw [if_neg (by simpa using hm)]
          rw [Nat.zero_add]
          exact h u

theorem finalizerRemoval_refCount_le (allocations : List Allocation) (requestID : String)
    (destroyReady : Bool) (resetOk : String → Bool) (u : String) :
    referencingCount (finalizerRemoval allocations requestID destroyReady resetOk).allocations u ≤
      referencingCount allocations u := by
  unfold finalizerRemoval
  cases hfind : allocations.find? (fun a => a.id = requestID) with
  | none => exact Nat.le_refl _
  | some a =>
    by_cases hd : destroyReady
    · rw [hd]
      dsimp only
      cases a.machineUUID with
      | none => exact referencingCount_eraseP_le allocations _ u
      | some muuid =>
        dsimp only
        by_cases hr : resetOk muuid
        · rw [if_pos hr]
          exact referencingCount_eraseP_le allocations _ u
        · rw [if_neg hr]
          exact referencingCount_eraseP_le allocations _ u
    · rw [Bool.of_not_eq_true hd]
      exact Nat.le_refl _

theorem applyStep_preserves_invariant (s : State) (st : Step)
    (h : MachineRefInvariant s) : MachineRefInvariant (applyStep s st) := by
  cases st with
  | createRequest request => exact h
  | bootQuery uuid => exact h
  | reconcile request => exact transform_preserves_refCount s.machines s.allocations request h
  | teardown requestID destroyReady resetOk =>
    intro u
    exact Nat.le_trans
      (finalizerRemoval_refCount_le s.allocations requestID destroyReady resetOk u) (h u)

theorem applySteps_preserves_invariant (steps : List Step) (s : State)
    (h : MachineRefInvariant s) : MachineRefInvariant (applySteps s steps) := by
  induction steps generalizing s with
  | nil => exact h
  | cons st steps ih => exact ih (applyStep s st) (applyStep_preserves_invariant s st h)

theorem finalizerRemoval_found_ready (allocations : List Allocation) (requestID : String)
    (resetOk : String → Bool) (a : Allocation)
    (hfind : allocations.find? (fun x => x.id = requestID) = some a) :
    finalizerRemoval allocations requestID true resetOk =
      match a.machineUUID with
      | none =>
        { outcome := .ok, allocations := allocations.eraseP (fun x => x.id = requestID),
          resets := [] }
      | some machineUUID =>
        if resetOk machineUUID then
          { outcome := .ok, allocations := allocations.eraseP (fun x => x.id = requestID),
            resets := [machineUUID] }
        else
          { outcome := .err "failed to reset the machine",
            allocations := allocations.eraseP (fun x => x.id = requestID),
            resets := [machineUUID] } := by
  unfold finalizerRemoval
  rw [hfind]
  rfl

theorem finalizerRemoval_found_not_ready (allocations : List Allocation) (requestID : String)
    (resetOk : String → Bool) (a : Allocation)
    (hfind : allocations.find? (fun x => x.id = requestID) = some a) :
    finalizerRemoval allocations requestID false resetOk =
      { outcome := .requeue requeueInterval, allocations := allocations, resets := [] } := by
  unfold finalizerRemoval
  rw [hfind]
  rfl

theorem finalizerRemoval_not_found (allocations : List Allocation) (requestID : String)
    (destroyReady : Bool) (resetOk : String → Bool)
    (hfind : allocations.find? (fun x => x.id = requestID) = none) :
    finalizerRemoval allocations requestID destroyReady resetOk =
      { outcome := .ok, allocations := allocations, resets := [] } := by
  unfold finalizerRemoval
  rw [hfind]

/-- C1: for every sequence of reconciliation steps (request creation,
matching, allocation creation, teardown) executed serially from a state where
each machine id is referenced by at most one allocation, after every step
(that is, after applying any list of steps) each machine id is still
referenced by at most one allocation with a machine UUID label equal to it. -/
theorem allocation_uniqueness_invariant_preserved (s : State) (steps : List Step)
    (h : MachineRefInvariant s) : MachineRefInvariant (applySteps s steps) :=
  applySteps_preserves_invariant steps s h

theorem allocation_uniqueness_invariant_preserved_witness :
    MachineRefInvariant (applySteps ⟨["m1", "m2"], []⟩
      [Step.reconcile ⟨"r1", "s", "1.0"⟩, Step.reconcile ⟨"r2", "s", "1.0"⟩,
        Step.teardown "r1" true (fun _ => true)]) :=
  allocation_uniqueness_invariant_preserved ⟨["m1", "m2"], []⟩ _
    (fun u => by simp [referencingCount])

/-- C3: for every request marked for removal whose allocation exists and
carries a machine UUID label, a teardown pass with the store ready to destroy
removes the allocation from the listing, invokes exactly one reset, for the
machine id read from the label, and returns success exactly when that reset
succeeds; moreover no pass that attempted a reset which failed returns
success (so the finalizer is released only after the reset succeeds). -/
theorem teardown_destroys_resets_and_gates_finalizer (allocations : List Allocation)
    (requestID : String) (resetOk : String → Bool) (a : Allocation) (m : String)
    (hfind : allocations.find? (fun x => x.id = requestID) = some a)
    (hlabel : a.machineUUID = some m) :
    (finalizerRemoval allocations requestID true resetOk).allocations =
      allocations.eraseP (fun x => x.id = requestID) ∧
    (finalizerRemoval allocations requestID true resetOk).resets = [m] ∧
    ((finalizerRemoval allocations requestID true resetOk).outcome = .ok ↔ resetOk m = true) ∧
    (∀ (destroyReady : Bool) (m' : String),
      (finalizerRemoval allocations requestID destroyReady resetOk).resets = [m'] →
      resetOk m' = false →
      (finalizerRemoval allocations requestID destroyReady resetOk).outcome ≠ .ok) := by
  have hready := finalizerRemoval_found_ready allocations requestID resetOk a hfind
  rw [hlabel] at hready
  dsimp only at hready
  by_cases hr : resetOk m
  · rw [if_pos hr] at hready
    refine ⟨by rw [hready], by rw [hready], by rw [hready]; simpa using hr, ?_⟩
    intro destroyReady m' hm' hfail
    cases destroyReady with
    | false =>
      rw [finalizerRemoval_found_not_ready allocations requestID resetOk a hfind] at hm' ⊢
      exact absurd hm' (by simp)
    | true =>
      rw [hready] at hm' ⊢
      have : m = m' := by simpa using hm'
      rw [← this] at hfail
      rw [hfail] at hr
      exact absurd hr (by simp)
  · rw [if_neg hr] at hready
    refine ⟨by rw [hready], by rw [hready], by rw [hready]; simpa using hr, ?_⟩
    intro destroyReady m' hm' hfail
    cases destroyReady with
    | false =>
      rw [finalizerRemoval_found_not_ready allocations requestID resetOk a hfind] at hm' ⊢
      exact absurd hm' (by simp)
    | true =>
      rw [hready]
      simp

theorem teardown_destroys_resets_and_gates_finalizer_witness :
    (finalizerRemoval [⟨"r1", some "m1", "s", "1.0"⟩] "r1" true (fun _ => false)).allocations =
      [] ∧
    (finalizerRemoval [⟨"r1", some "m1", "s", "1.0"⟩] "r1" true (fun _ => false)).resets =
      ["m1"] ∧
    ((finalizerRemoval [⟨"r1", some "m1", "s", "1.0"⟩] "r1" true (fun _ => false)).outcome =
      .ok ↔ (fun _ => false) "m1" = true) ∧
    (∀ (destroyReady : Bool) (m' : String),
      (finalizerRemoval [⟨"r1", some "m1", "s", "1.0"⟩] "r1" destroyReady
        (fun _ => false)).resets = [m'] →
      (fun _ => false) m' = false →
      (finalizerRemoval [⟨"r1", some "m1", "s", "1.0"⟩] "r1" destroyReady
        (fun _ => false)).outcome ≠ .ok) :=
  teardown_destroys_resets_and_gates_finalizer [⟨"r1", some "m1", "s", "1.0"⟩] "r1"
    (fun _ => false) ⟨"r1", some "m1", "s", "1.0"⟩ "m1" (by decide) (by decide)

/-- C4: whenever matching fails with no machine available, the transform pass
sets the status stage to Provisioning, schedules a requeue after the fixed
30-second interval rather than returning an error, and creates no
allocation. -/
theorem exhausted_requeues_without_error (machines : List String)
    (allocations : List Allocation) (request : RequestSpec)
    (h : findMachineUUID machines allocations request.id = .error .noMachineAvailable) :
    transform machines allocations request =
      { outcome := .requeue requeueInterval, stage := some .provisioning,
        statusId := none, allocations := allocations } ∧
    requeueInterval = 30 ∧
    (∀ msg, (transform machines allocations request).outcome ≠ .err msg) := by
  have ht : transform machines allocations request =
      { outcome := .requeue requeueInterval, stage := some .provisioning,
        statusId := none, allocations := allocations } := by
    unfold transform
    rw [h]
  exact ⟨ht, rfl, fun msg => by rw [ht]; simp⟩

theorem exhausted_requeues_without_error_witness :
    transform [] [] ⟨"r1", "s", "1.0"⟩ =
      { outcome := .requeue requeueInterval, stage := some .provisioning,
        statusId := none, allocations := [] } ∧
    requeueInterval = 30 ∧
    (∀ msg, (transform [] [] ⟨"r1", "s", "1.0"⟩).outcome ≠ .err msg) :=
  exhausted_requeues_without_error [] [] ⟨"r1", "s", "1.0"⟩ (by decide)

/-- C7: a teardown pass for a request with no allocation returns success
immediately and changes nothing: the state (machines and allocations) is
unchanged and no reset is invoked. -/
theorem teardown_without_allocation_is_noop (s : State) (requestID : String)
    (destroyReady : Bool) (resetOk : String → Bool)
    (h : s.allocations.find? (fun a => a.id = requestID) = none) :
    (finalizerRemoval s.allocations requestID destroyReady resetOk).outcome = .ok ∧
    applyStep s (Step.teardown requestID destroyReady resetOk) = s ∧
    (finalizerRemoval s.allocations requestID destroyReady resetOk).resets = [] := by
  have hr := finalizerRemoval_not_found s.allocations requestID destroyReady resetOk h
  have happ : applyStep s (Step.teardown requestID destroyReady resetOk) =
      { s with allocations :=
        (finalizerRemoval s.allocations requestID destroyReady resetOk).allocations } := rfl
  exact ⟨by rw [hr], by rw [happ, hr], by rw [hr]⟩

theorem teardown_without_allocation_is_noop_witness :
    (finalizerRemoval (⟨["m1"], [⟨"r2", some "m1", "s", "1.0"⟩]⟩ : State).allocations "r1"
      true (fun _ => true)).outcome = .ok ∧
    applyStep ⟨["m1"], [⟨"r2", some "m1", "s", "1.0"⟩]⟩
      (Step.teardown "r1" true (fun _ => true)) = ⟨["m1"], [⟨"r2", some "m1", "s", "1.0"⟩]⟩ ∧
    (finalizerRemoval (⟨["m1"], [⟨"r2", some "m1", "s", "1.0"⟩]⟩ : State).allocations "r1"
      true (fun _ => true)).resets = [] :=
  teardown_without_allocation_is_noop ⟨["m1"], [⟨"r2", some "m1", "s", "1.0"⟩]⟩ "r1"
    true (fun _ => true) (by decide)

/-- C9: a teardown pass that destroys an allocation carrying no machine UUID
label invokes no reset and still returns success, releasing the finalizer;
and this is the only way a teardown pass that found an allocation and was
ready to destroy returns success without invoking a reset. -/
theorem missing_label_safety_valve (allocations : List Allocation) (requestID : String)
    (resetOk : String → Bool) (a : Allocation)
    (hfind : allocations.find? (fun x => x.id = requestID) = some a)
    (hlabel : a.machineUUID = none) :
    finalizerRemoval allocations requestID true resetOk =
      { outcome := .ok, allocations := allocations.eraseP (fun x => x.id = requestID),
        resets := [] } ∧
    (∀ (as : List Allocation) (b : Allocation),
      as.find? (fun x => x.id = requestID) = some b →
      (finalizerRemoval as requestID true resetOk).outcome = .ok →
      (finalizerRemoval as requestID true resetOk).resets = [] →
      b.machineUUID = none) := by
  constructor
  · have hready := finalizerRemoval_found_ready allocations requestID resetOk a hfind
    rw [hlabel] at hready
    exact hready
  · intro as b hfindb hok hresets
    have hready := finalizerRemoval_found_ready as requestID resetOk b hfindb
    cases hm : b.machineUUID with
    | none => rfl
    | some m =>
      rw [hm] at hready
      dsimp only at hready
      by_cases hr : resetOk m
      · rw [if_pos hr] at hready
        rw [hready] at hresets
        exact absurd hresets (by simp)
      · rw [if_neg hr] at hready
        rw [hready] at hok
        exact absurd hok (by simp)

theorem missing_label_safety_valve_witness :
    finalizerRemoval [⟨"r1", none, "s", "1.0"⟩] "r1" true (fun _ => true) =
      { outcome := .ok,
        allocations := List.eraseP (fun x => x.id = "r1") [⟨"r1", none, "s", "1.0"⟩],
        resets := [] } :=
  (missing_label_safety_valve [⟨"r1", none, "s", "1.0"⟩] "r1" (fun _ => true)
    ⟨"r1", none, "s", "1.0"⟩ (by decide) rfl).1

/-- C2, counterexample to the claim as stated: in the state with one machine
m1 whose allocation binds it to request r1, no machine in the list is
unbound, yet match for r1 does not fail with Exhausted — it returns
(m1, true). So "fails with Exhausted exactly when no machine in the list is
unbound" does not hold in the direction from right to left. -/
theorem match_exhausted_counterexample :
    (∀ m ∈ ["m1"], uuidToRequestID [⟨"r1", some "m1", "s", "1.0"⟩] m ≠ none) ∧
    findMachineUUID ["m1"] [⟨"r1", some "m1", "s", "1.0"⟩] "r1" = .ok ("m1", true) ∧
    findMachineUUID ["m1"] [⟨"r1", some "m1", "s", "1.0"⟩] "r1" ≠
      .error .noMachineAvailable := by
  decide

/-- C2 (amended): match scans machines in listing order; a returned machine
is preceded only by machines bound to other requests, is bound to the scanned
request when alreadyBound is true and unbound when alreadyBound is false; and
match fails with Exhausted exactly when every machine in the list is bound to
a request other than the scanned one (not merely when no machine is
unbound). -/
theorem match_scan_characterization (machines : List String)
    (allocations : List Allocation) (requestID : String) :
    (∀ m b, findMachineUUID machines allocations requestID = .ok (m, b) →
      ∃ pre post, machines = pre ++ m :: post ∧
        (∀ m' ∈ pre, SkippedBy allocations requestID m') ∧
        (b = true → uuidToRequestID allocations m = some requestID) ∧
        (b = false → uuidToRequestID allocations m = none)) ∧
    (findMachineUUID machines allocations requestID = .error .noMachineAvailable ↔
      ∀ m ∈ machines, SkippedBy allocations requestID m) :=
  ⟨fun m b h => findMachineUUIDScan_ok_decomp allocations requestID machines m b h,
    findMachineUUIDScan_exhausted_iff allocations requestID machines⟩

theorem match_scan_characterization_witness :
    findMachineUUID ["m1"] [⟨"r1", some "m1", "s", "1.0"⟩] "r2" =
      .error .noMachineAvailable :=
  (match_scan_characterization ["m1"] [⟨"r1", some "m1", "s", "1.0"⟩] "r2").2.mpr
    (by
      intro m hm
      rw [List.mem_singleton.mp hm]
      exact ⟨"r1", by decide, by decide⟩)

/-- C8, counterexample to the claim as stated: with one free machine m1 and
no allocations, match for r1 succeeds with (m1, false); a second call with no
intervening state change is the identical invocation and returns (m1, false)
again — the same machineId, but alreadyBound is false, not true. -/
theorem match_second_call_counterexample :
    findMachineUUID ["m1"] [] "r1" = .ok ("m1", false) ∧
    findMachineUUID ["m1"] [] "r1" ≠ .ok ("m1", true) := by
  decide

/-- C8 (amended): match is deterministic, so a second call with no
intervening state change returns exactly the first result (same machineId and
same alreadyBound flag); and when the first call was a fresh pick, once the
controller records that pick by creating the correspondingly labeled
allocation, the next call returns the same machineId with
alreadyBound = true. -/
theorem match_deterministic_and_rebinds (machines : List String)
    (allocations : List Allocation) (requestID m : String) (b : Bool)
    (h : findMachineUUID machines allocations requestID = .ok (m, b)) :
    findMachineUUID machines allocations requestID = .ok (m, b) ∧
    (b = false → ∀ schematicId talosVersion,
      findMachineUUID machines
        (createAllocation ⟨requestID, some m, schematicId, talosVersion⟩ allocations)
        requestID = .ok (m, true)) := by
  refine ⟨h, fun hb schematicId talosVersion => ?_⟩
  rw [hb] at h
  obtain ⟨pre, post, hsplit, hskip, _, hnone⟩ :=
    findMachineUUIDScan_ok_decomp allocations requestID machines m false h
  have hfree : ∀ x ∈ allocations, x.machineUUID ≠ some m :=
    (uuidToRequestID_eq_none_iff allocations m).mp (hnone rfl)
  have hbound :
      uuidToRequestID
        (createAllocation ⟨requestID, some m, schematicId, talosVersion⟩ allocations) m =
        some requestID :=
    uuidToRequestID_createAllocation_of_eq m
      ⟨requestID, some m, schematicId, talosVersion⟩ rfl allocations hfree
  have hskip' : ∀ m' ∈ pre,
      SkippedBy (createAllocation ⟨requestID, some m, schematicId, talosVersion⟩ allocations)
        requestID m' := by
    intro m' hmem
    obtain ⟨r, hr, hne⟩ := hskip m' hmem
    have hmne : m ≠ m' := by
      intro he
      rw [← he, hnone rfl] at hr
      exact Option.noConfusion hr
    refine ⟨r, ?_, hne⟩
    rw [uuidToRequestID_createAllocation_of_ne m'
      ⟨requestID, some m, schematicId, talosVersion⟩ (by simpa using hmne) allocations]
    exact hr
  rw [findMachineUUID, hsplit]
  exact findMachineUUIDScan_of_skipped_then_bound _ requestID pre m post hskip' hbound

theorem match_deterministic_and_rebinds_witness :
    findMachineUUID ["m1"] (createAllocation ⟨"r1", some "m1", "s", "1.0"⟩ []) "r1" =
      .ok ("m1", true) :=
  (match_deterministic_and_rebinds ["m1"] [] "r1" "m1" false (by decide)).2 rfl "s" "1.0"

theorem foldl_uuidInsert_filter_isSome (u : String) (l : List Allocation) :
    ∀ acc : Option String,
      (l.filter (fun a => a.machineUUID.isSome)).foldl (uuidInsert u) acc =
        l.foldl (uuidInsert u) acc := by
  induction l with
  | nil => intro acc; rfl
  | cons a l ih =>
    intro acc
    rw [List.filter_cons]
    cases hm : a.machineUUID with
    | none =>
      simp only [hm, Option.isSome_none, Bool.false_eq_true, if_false]
      rw [List.foldl_cons,
        uuidInsert_of_ne u acc a (by rw [hm]; exact fun h => Option.noConfusion h)]
      exact ih acc
    | some v =>
      simp only [hm, Option.isSome_some, if_true]
      rw [List.foldl_cons, List.foldl_cons]
      exact ih (uuidInsert u acc a)

theorem uuidToRequestID_filter_isSome (l : List Allocation) (u : String) :
    uuidToRequestID (l.filter (fun a => a.machineUUID.isSome)) u = uuidToRequestID l u :=
  foldl_uuidInsert_filter_isSome u l none

theorem findMachineUUIDScan_congr (as1 as2 : List Allocation) (requestID : String)
    (h : ∀ u, uuidToRequestID as1 u = uuidToRequestID as2 u) :
    ∀ machines, findMachineUUIDScan as1 requestID machines =
      findMachineUUIDScan as2 requestID machines := by
  intro machines
  induction machines with
  | nil => rfl
  | cons m ms ih =>
    rw [findMachineUUIDScan, findMachineUUIDScan, h m, ih]

/-- C10: allocations lacking the machine UUID label are omitted from the
reverse index, so match computes the same result as if they were absent; no
machine is considered bound by such an allocation, and a machine labeled by
no allocation is unbound in the index (hence eligible to be returned as a
fresh pick for another request). -/
theorem unlabeled_allocations_ignored_by_match (machines : List String)
    (allocations : List Allocation) (requestID : String) :
    findMachineUUID machines (allocations.filter (fun a => a.machineUUID.isSome))
      requestID = findMachineUUID machines allocations requestID ∧
    (∀ u, uuidToRequestID (allocations.filter (fun a => a.machineUUID.isSome)) u =
      uuidToRequestID allocations u) ∧
    (∀ m, (∀ a ∈ allocations, a.machineUUID ≠ some m) →
      uuidToRequestID allocations m = none) :=
  ⟨findMachineUUIDScan_congr _ _ requestID
      (fun u => uuidToRequestID_filter_isSome allocations u) machines,
    fun u => uuidToRequestID_filter_isSome allocations u,
    fun m h => (uuidToRequestID_eq_none_iff allocations m).mpr h⟩

theorem unlabeled_allocations_ignored_by_match_witness :
    findMachineUUID ["m1"]
      (List.filter (fun a => a.machineUUID.isSome) [⟨"r1", none, "s", "1.0"⟩]) "r2" =
      findMachineUUID ["m1"] [⟨"r1", none, "s", "1.0"⟩] "r2" ∧
    uuidToRequestID [⟨"r1", none, "s", "1.0"⟩] "m1" = none :=
  ⟨(unlabeled_allocations_ignored_by_match ["m1"] [⟨"r1", none, "s", "1.0"⟩] "r2").1,
    (unlabeled_allocations_ignored_by_match ["m1"] [⟨"r1", none, "s", "1.0"⟩] "r2").2.2
      "m1" (by decide)⟩

theorem contains_iff (l : List String) (a : String) : l.contains a = true ↔ a ∈ l := by
  simp [List.contains, List.elem_iff]

theorem ensureQemuMachine_creates (machines : List String) (allocations : List Allocation)
    (uuid : String)
    (halloc : allocations.filter (fun a => a.machineUUID = some uuid) = [])
    (hmach : machines.contains uuid = false) :
    ensureQemuMachine machines allocations uuid =
      (none, List.orderedInsert (fun x y : String => x ≤ y) uuid machines) := by
  unfold ensureQemuMachine
  rw [halloc, hmach]
  rfl

theorem ensureQemuMachine_known (machines : List String) (allocations : List Allocation)
    (uuid : String)
    (halloc : allocations.filter (fun a => a.machineUUID = some uuid) = [])
    (hmach : machines.contains uuid = true) :
    ensureQemuMachine machines allocations uuid = (none, machines) := by
  unfold ensureQemuMachine
  rw [halloc, hmach]
  rfl

theorem ensureQemuMachine_allocated (machines : List String) (allocations : List Allocation)
    (uuid : String) (a : Allocation) (rest : List Allocation)
    (hfilter : allocations.filter (fun x => x.machineUUID = some uuid) = a :: rest) :
    ensureQemuMachine machines allocations uuid = (some a, machines) := by
  unfold ensureQemuMachine
  rw [hfilter]

/-- C5: a boot query for a machine id with no matching allocation and no
machine record answers 404 with the retry-hint body and registers exactly one
machine record for that id; a repeated query for the same still-unallocated
id answers 404 again and leaves the machine list unchanged (no duplicate
record). -/
theorem boot_unknown_id_creates_machine_once (url : String) (machines : List String)
    (allocations : List Allocation) (uuid : String)
    (halloc : allocations.filter (fun a => a.machineUUID = some uuid) = [])
    (hmach : machines.contains uuid = false) :
    (handleIpxeRequest url machines allocations uuid).1.status = 404 ∧
    (handleIpxeRequest url machines allocations uuid).1.body =
      "no pending requests, come later" ∧
    ((handleIpxeRequest url machines allocations uuid).2).count uuid = 1 ∧
    (handleIpxeRequest url (handleIpxeRequest url machines allocations uuid).2
      allocations uuid).1.status = 404 ∧
    (handleIpxeRequest url (handleIpxeRequest url machines allocations uuid).2
      allocations uuid).2 = (handleIpxeRequest url machines allocations uuid).2 := by
  have h1 := ensureQemuMachine_creates machines allocations uuid halloc hmach
  have hreq1 : handleIpxeRequest url machines allocations uuid =
      (⟨404, none, "no pending requests, come later"⟩,
        List.orderedInsert (fun x y : String => x ≤ y) uuid machines) := by
    unfold handleIpxeRequest
    rw [h1]
  have hperm := List.perm_orderedInsert (fun x y : String => x ≤ y) uuid machines
  have hnotmem : uuid ∉ machines := by
    intro hm
    rw [(contains_iff machines uuid).mpr hm] at hmach
    exact Bool.noConfusion hmach
  have hcount : (List.orderedInsert (fun x y : String => x ≤ y) uuid machines).count uuid
      = 1 := by
    rw [hperm.count_eq, List.count_cons_self, List.count_eq_zero.mpr hnotmem]
  have hcont2 :
      (List.orderedInsert (fun x y : String => x ≤ y) uuid machines).contains uuid = true :=
    (contains_iff _ uuid).mpr (hperm.mem_iff.mpr (List.mem_cons_self uuid machines))
  have h2 := ensureQemuMachine_known
    (List.orderedInsert (fun x y : String => x ≤ y) uuid machines) allocations uuid
    halloc hcont2
  have hreq2 : handleIpxeRequest url
      (List.orderedInsert (fun x y : String => x ≤ y) uuid machines) allocations uuid =
      (⟨404, none, "no pending requests, come later"⟩,
        List.orderedInsert (fun x y : String => x ≤ y) uuid machines) := by
    unfold handleIpxeRequest
    rw [h2]
  refine ⟨by rw [hreq1], by rw [hreq1], by rw [hreq1]; exact hcount, ?_, ?_⟩
  · rw [hreq1]
    dsimp only
    rw [hreq2]
  · rw [hreq1]
    dsimp only
    rw [hreq2]

theorem boot_unknown_id_creates_machine_once_witness :
    (handleIpxeRequest "http://f" [] [] "m1").1.status = 404 ∧
    (handleIpxeRequest "http://f" [] [] "m1").1.body = "no pending requests, come later" ∧
    ((handleIpxeRequest "http://f" [] [] "m1").2).count "m1" = 1 ∧
    (handleIpxeRequest "http://f" (handleIpxeRequest "http://f" [] [] "m1").2
      [] "m1").1.status = 404 ∧
    (handleIpxeRequest "http://f" (handleIpxeRequest "http://f" [] [] "m1").2
      [] "m1").2 = (handleIpxeRequest "http://f" [] [] "m1").2 :=
  boot_unknown_id_creates_machine_once "http://f" [] [] "m1" (by decide) (by decide)

/-- C6: a boot query for a machine id with an existing allocation answers 200
text/plain with a chain directive to url/pxe/schematic/version/metal-amd64
built from the schematic id and Talos version of the first matching
allocation, where the version gets a leading v exactly when it does not
already start with one. -/
theorem boot_allocated_id_renders_chain_script (url : String) (machines : List String)
    (allocations : List Allocation) (uuid : String) (a : Allocation) (rest : List Allocation)
    (hfilter : allocations.filter (fun x => x.machineUUID = some uuid) = a :: rest) :
    handleIpxeRequest url machines allocations uuid =
      (⟨200, some "text/plain",
        "#!ipxe\nchain --replace " ++ url ++ "/pxe/" ++ a.schematicId ++ "/" ++
          normalizeTalosVersion a.talosVersion ++ "/metal-amd64\n"⟩, machines) ∧
    (∀ v, startsWithV v = false → normalizeTalosVersion v = "v" ++ v) ∧
    (∀ v, startsWithV v = true → normalizeTalosVersion v = v) ∧
    normalizeTalosVersion "1.9.0" = "v1.9.0" ∧
    normalizeTalosVersion "v1.9.0" = "v1.9.0" := by
  refine ⟨?_, ?_, ?_, by decide, by decide⟩
  · unfold handleIpxeRequest
    rw [ensureQemuMachine_allocated machines allocations uuid a rest hfilter]
    rfl
  · intro v hv
    unfold normalizeTalosVersion
    rw [hv]
    rfl
  · intro v hv
    unfold normalizeTalosVersion
    rw [hv]
    rfl

theorem boot_allocated_id_renders_chain_script_witness :
    handleIpxeRequest "http://factory" ["m1"] [⟨"r1", some "m1", "abc", "1.9.0"⟩] "m1" =
      (⟨200, some "text/plain",
        "#!ipxe\nchain --replace http://factory/pxe/abc/v1.9.0/metal-amd64\n"⟩, ["m1"]) :=
  ((boot_allocated_id_renders_chain_script "http://factory" ["m1"]
      [⟨"r1", some "m1", "abc", "1.9.0"⟩] "m1" ⟨"r1", some "m1", "abc", "1.9.0"⟩ []
      (by decide)).1).trans (by decide)

example :
    findMachineUUID ["m1", "m2"] [⟨"r1", some "m1", "s", "1.0"⟩] "r2" = .ok ("m2", false) := by
  decide

example :
    findMachineUUID ["m1"] [⟨"r1", some "m1", "s", "1.0"⟩] "r1" = .ok ("m1", true) := by
  decide

example :
    findMachineUUID ["m1"] [⟨"r1", some "m1", "s", "1.0"⟩] "r2" =
      .error .noMachineAvailable := by
  decide

example :
    (transform ["m1"] [] ⟨"r1", "s", "1.0"⟩).allocations =
      [⟨"r1", some "m1", "s", "1.0"⟩] := by
  decide

example :
    finalizerRemoval [⟨"r1", some "m1", "s", "1.0"⟩] "r1" true (fun _ => true) =
      { outcome := .ok, allocations := [], resets := ["m1"] } := by
  decide

example :
    (handleIpxeRequest "http://f" [] [⟨"r1", some "m1", "s", "1.9.0"⟩] "m1").1.body =
      "#!ipxe\nchain --replace http://f/pxe/s/v1.9.0/metal-amd64\n" := by
  decide
